import Mathlib

/-!
Verification of the BLS signature wrapper in `main.go` (package main).

The Go file wraps two external collaborators:
  - `github.com/ethereum/go-ethereum/common/hexutil` - a byte/hex codec;
  - `github.com/prysmaticlabs/prysm/v5/crypto/bls` - the BLS12-381
    pairing-curve primitive (secret/public keys, signing, point-addition
    aggregation, single and batched pairing checks).

The wrapper functions (`GenerateKeyPair`, `GenerateSignature`,
`AggregateSignatures`, `VerifySignature`, `VerifyAggregateSignature`) are
embedded here statement by statement.  The curve primitive is modelled as a
free module over formal generators: the hash-to-curve point `H(d)` of a
32-byte digest `d` is the generator indexed by the big-endian value of `d`,
a signature point is a formal linear combination of generators with
coefficients in the scalar field of order `rBLS` (the BLS12-381 subgroup
order), a public key is identified with its discrete logarithm `s` (the
point `s * G1`), and the pairing predicate `e(sig, G) = e(H(d), pk)` holds
exactly when `sig = pk * H(d)` in the free module.  This captures exactly
the identities that hold generically in the prime-order subgroup (no
relations between hash points of distinct digests).  Serialization of model
points is an injective block encoding of the canonical form of the
combination; prysm's randomized batch verification
(`VerifyMultipleSignatures`, a random-linear-combination check that is
complete, and sound up to negligible probability) is modelled as the exact
conjunction of the individual pairing checks.
-/

set_option autoImplicit false
set_option maxRecDepth 16000

/-- Decidable equality of `Except` values, used to evaluate concrete runs
of the embedded functions. -/
instance {ε α : Type} [DecidableEq ε] [DecidableEq α] : DecidableEq (Except ε α) := fun a b =>
  match a, b with
  | .ok x, .ok y =>
    if h : x = y then isTrue (by rw [h]) else isFalse (fun hc => h (by cases hc; rfl))
  | .error e, .error f =>
    if h : e = f then isTrue (by rw [h]) else isFalse (fun hc => h (by cases hc; rfl))
  | .ok _, .error _ => isFalse (fun hc => Except.noConfusion hc)
  | .error _, .ok _ => isFalse (fun hc => Except.noConfusion hc)

/-- Model of a Go `byte`. -/
abbrev Byte := Fin 256

/-- Model of a Go `string`: Go strings are plain byte sequences. -/
abbrev GoString := List Byte

/-- Order of the BLS12-381 prime-order subgroup (the scalar field size
used by prysm for secret keys). -/
def rBLS : Nat := 0x73eda753299d7d483339d80809a1d80553bda402fffe5bfeffffffff00000001

/-- Concatenation of the images of a list under a list-valued function
(structural recursion so that concrete evaluation reduces in the kernel). -/
def concatMap {α β : Type} (f : α → List β) : List α → List β
  | [] => []
  | x :: t => f x ++ concatMap f t

/-- Big-endian base-256 encoding of a natural number into exactly `w` bytes
(the value is taken modulo `256 ^ w`, mirroring fixed-width serialization). -/
def natToBE : Nat → Nat → List Byte
  | 0, _ => []
  | w + 1, v => natToBE w (v / 256) ++ [⟨v % 256, by omega⟩]

/-- Big-endian value of a byte sequence. -/
def beVal (l : List Byte) : Nat := l.foldl (fun a b => a * 256 + b.val) 0

/-- Value of one ASCII hex digit (both cases), as in Go `encoding/hex`. -/
def hexDigitVal (c : Byte) : Option Nat :=
  if 48 ≤ c.val ∧ c.val ≤ 57 then some (c.val - 48)
  else if 97 ≤ c.val ∧ c.val ≤ 102 then some (c.val - 87)
  else if 65 ≤ c.val ∧ c.val ≤ 70 then some (c.val - 55)
  else none

/-- Lowercase ASCII hex digit of a nibble, as produced by Go `encoding/hex`. -/
def hexDigitChar (n : Nat) : Byte :=
  ⟨(if n < 10 then 48 + n else 87 + n) % 256, by omega⟩

/-- Decoding of the hex digits after the `0x` marker: pairs of digits become
bytes; an odd number of digits or a non-digit character fails, as in Go
`encoding/hex.DecodeString`. -/
def decodeHexBody : GoString → Option (List Byte)
  | [] => some []
  | [_] => none
  | c1 :: c2 :: rest =>
    match hexDigitVal c1, hexDigitVal c2, decodeHexBody rest with
    | some hi, some lo, some bs => some (⟨(16 * hi + lo) % 256, by omega⟩ :: bs)
    | _, _, _ => none

namespace hexutil

/-- Model of `hexutil.Encode`: `0x` followed by two lowercase hex digits per
byte. -/
def Encode (b : List Byte) : GoString :=
  ⟨48, by omega⟩ :: ⟨120, by omega⟩ ::
    concatMap (fun x => [hexDigitChar (x.val / 16), hexDigitChar (x.val % 16)]) b

/-- Model of `hexutil.Decode`: requires a leading `0x` (or `0X`) marker and
an even sequence of hex digits; any failure (empty input, missing marker,
odd length, bad digit) is collapsed to `none` since the Go wrapper treats
every `hexutil.Decode` error alike at each call site. -/
def Decode (s : GoString) : Option (List Byte) :=
  match s with
  | c0 :: c1 :: rest =>
    if c0.val = 48 ∧ (c1.val = 120 ∨ c1.val = 88) then decodeHexBody rest else none
  | _ => none

end hexutil

/-- Failure outcomes of the Go wrapper, one constructor per distinct
failure site / error kind:
  - `invalidMsgLength` is the sentinel `ErrInvalidMsgLength`;
  - the `...HexDecode` / `...Parse` constructors stand for the wrapped
    `fmt.Errorf` failures of the corresponding decode / deserialize call;
  - `batchLengthMismatch` is prysm's `VerifyMultipleSignatures` error for
    differing slice lengths;
  - `runtimePanic` marks the one reachable crash: calling `Marshal` on the
    nil signature that `bls.AggregateSignatures` returns for an empty list
    (a Go runtime panic, not an error value the function ever returns);
  - `emptyInput` is the `ErrEmptyInput` kind named by the specification's
    error taxonomy; the Go code contains no such error value, and the
    constructor exists only so that statements about it can be written. -/
inductive GoError where
  | invalidMsgLength
  | secretKeyHexDecode
  | secretKeyParse
  | publicKeyHexDecode
  | publicKeyParse
  | signatureHexDecode
  | signatureParse
  | batchLengthMismatch
  | runtimePanic
  | emptyInput
  deriving DecidableEq

/-- A point of the signature group, modelled as a formal linear combination
of hash-to-curve generators: an unordered bag of (generator index,
scalar coefficient) terms.  Two bags denote the same point when the
per-generator coefficient sums agree modulo `rBLS`. -/
abbrev G2 := Multiset (Nat × Nat)

/-- Combined coefficient of generator `k` in a term list, modulo `rBLS`. -/
def coeffL (l : List (Nat × Nat)) (k : Nat) : Nat :=
  (((l.filter (fun t => t.1 == k)).map Prod.snd).sum) % rBLS

/-- Canonical form of a term list: generator indices in strictly increasing
order, one term per index, zero coefficients dropped. -/
def canonListL (l : List (Nat × Nat)) : List (Nat × Nat) :=
  (List.insertionSort (· ≤ ·) (l.map Prod.fst).dedup).filterMap
    (fun k => if coeffL l k = 0 then none else some (k, coeffL l k))

theorem coeffL_perm {l₁ l₂ : List (Nat × Nat)} (h : l₁.Perm l₂) : coeffL l₁ = coeffL l₂ := by
  funext k
  unfold coeffL
  rw [((h.filter (fun t => t.1 == k)).map Prod.snd).sum_eq]

theorem canonListL_perm {l₁ l₂ : List (Nat × Nat)} (h : l₁.Perm l₂) :
    canonListL l₁ = canonListL l₂ := by
  unfold canonListL
  rw [coeffL_perm h]
  congr 1
  refine List.eq_of_perm_of_sorted ?_ (List.sorted_insertionSort _ _) (List.sorted_insertionSort _ _)
  exact (List.perm_insertionSort _ _).trans (((h.map Prod.fst).dedup).trans (List.perm_insertionSort _ _).symm)

/-- Canonical form of a model point; well defined on the bag quotient. -/
def canonList (g : G2) : List (Nat × Nat) :=
  Quotient.liftOn g canonListL (fun _ _ h => canonListL_perm h)

/-- Equality test of two model points (the pairing-based point equality of
the curve library): equal canonical forms. -/
def gEqB (a b : G2) : Bool := decide (canonList a = canonList b)

/-- Serialization of a model point: 64-byte blocks (32-byte big-endian
generator index, then 32-byte big-endian coefficient) of the canonical
form, standing in for the fixed-width compressed point encoding. -/
def marshalG2 (g : G2) : List Byte :=
  concatMap (fun t => natToBE 32 t.1 ++ natToBE 32 t.2) (canonList g)

/-- Splitting of a byte sequence into exact 64-byte blocks (`acc` holds the
current block reversed); fails unless the length is a multiple of 64. -/
def chunks64 (acc : List Byte) : List Byte → Option (List (List Byte))
  | [] => if acc.isEmpty then some [] else none
  | x :: rest =>
    if acc.length = 63 then (chunks64 [] rest).map (fun cs => (acc.reverse ++ [x]) :: cs)
    else chunks64 (x :: acc) rest

/-- Reading the canonical term blocks back: indices must be strictly
increasing past the previous one and coefficients must be nonzero scalars
below `rBLS`, so that exactly the canonical encodings are accepted
(mirroring that the curve library accepts exactly the valid compressed
subgroup points). -/
def termsOfChunks (lo : Option Nat) : List (List Byte) → Option (List (Nat × Nat))
  | [] => some []
  | ch :: rest =>
    let k := beVal (ch.take 32)
    let c := beVal (ch.drop 32)
    let okKey := match lo with
      | none => true
      | some k0 => decide (k0 < k)
    if okKey = true ∧ 0 < c ∧ c < rBLS then
      (termsOfChunks (some k) rest).map (fun ts => (k, c) :: ts)
    else none

namespace bls

/-- Model of prysm `bls.SecretKeyFromBytes`: exactly 32 bytes whose
big-endian value is a nonzero scalar below the subgroup order (prysm
rejects wrong lengths, out-of-range scalars and the zero key). -/
def SecretKeyFromBytes (b : List Byte) : Option Nat :=
  if b.length = 32 ∧ 0 < beVal b ∧ beVal b < rBLS then some (beVal b) else none

/-- Model of prysm `bls.PublicKeyFromBytes`: a valid compressed subgroup
point, identified with its discrete logarithm `s` in `(0, rBLS)` and
modelled as the 48-byte big-endian encoding of `s` (prysm rejects
malformed points and the point at infinity). -/
def PublicKeyFromBytes (b : List Byte) : Option Nat :=
  if b.length = 48 ∧ 0 < beVal b ∧ beVal b < rBLS then some (beVal b) else none

/-- Model of prysm `bls.SignatureFromBytes`: accepts exactly the canonical
block encodings produced by `marshalG2` (the curve library accepts exactly
the valid compressed points of the subgroup). -/
def SignatureFromBytes (b : List Byte) : Option G2 :=
  ((chunks64 [] b).bind (termsOfChunks none)).map Multiset.ofList

/-- Model of prysm `SecretKey.Sign` on a digest: the point
`sk * H(digest)`, one formal term at the generator of the digest. -/
def Sign (sk : Nat) (digest : List Byte) : G2 :=
  Multiset.ofList [(beVal digest, sk)]

/-- The pairing predicate `e(sig, G) = e(H(msg), pk)` of the model: the
signature point equals `pk * H(msg)`. -/
def pairingHolds (pk : Nat) (msg : List Byte) (sig : G2) : Bool :=
  gEqB sig (Multiset.ofList [(beVal msg, pk)])

/-- Model of prysm `bls.AggregateSignatures`: point addition of the list;
prysm explicitly returns nil for an empty list, modelled as `none`. -/
def AggregateSignatures (sigs : List G2) : Option G2 :=
  if sigs.isEmpty then none else some sigs.sum

/-- Model of prysm `bls.VerifySignature`: deserializes the signature bytes
(an error on failure, as in prysm) and evaluates the pairing check. -/
def VerifySignature (sigBytes : List Byte) (msg32 : List Byte) (pk : Nat) :
    Except GoError Bool :=
  match SignatureFromBytes sigBytes with
  | none => .error .signatureParse
  | some s => .ok (pairingHolds pk msg32 s)

/-- Conjunction of the individual pairing checks over parallel lists. -/
def batchHolds : List G2 → List (List Byte) → List Nat → Bool
  | [], [], [] => true
  | s :: ss, m :: ms, p :: ps => pairingHolds p m s && batchHolds ss ms ps
  | _, _, _ => false

/-- Model of prysm `bls.VerifyMultipleSignatures`: returns the verdict
`false` (not an error) for empty input or signature bytes that fail batch
uncompression, an error for differing list lengths, and otherwise the
random-linear-combination batch check, modelled deterministically as the
conjunction of the individual pairing checks (the randomized check is
complete, and sound up to negligible probability). -/
def VerifyMultipleSignatures (sigs : List (List Byte)) (msgs : List (List Byte))
    (pks : List Nat) : Except GoError Bool :=
  if sigs.isEmpty ∨ pks.isEmpty then .ok false
  else
    match sigs.mapM SignatureFromBytes with
    | none => .ok false
    | some ss =>
      if sigs.length ≠ pks.length ∨ msgs.length ≠ pks.length then
        .error .batchLengthMismatch
      else .ok (batchHolds ss msgs pks)

end bls

/-- Go `var msgBytes [32]byte; copy(msgBytes[:], msg)`: a zeroed 32-byte
array whose leading `min (len msg) 32` bytes are overwritten by `msg`. -/
def goCopy32 (msg : GoString) : List Byte :=
  (msg ++ List.replicate 32 (0 : Byte)).take 32

/-- `GenerateKeyPair` of `main.go`, with the scalar `v` sampled by
`bls.RandKey` made an explicit parameter (prysm guarantees
`0 < v < rBLS`); the secret key marshals to 32 bytes and the derived
public key (discrete logarithm `v`) to 48 bytes, both hex encoded. -/
def GenerateKeyPair (v : Nat) : GoString × GoString :=
  (hexutil.Encode (natToBE 32 v), hexutil.Encode (natToBE 48 v))

/-- `GenerateSignature` of `main.go`: hex-decode the secret key,
deserialize it, truncate/pad the message to the 32-byte digest, sign, and
hex-encode the marshalled signature. -/
def GenerateSignature (privKeyHex msg : GoString) : Except GoError GoString :=
  match hexutil.Decode privKeyHex with
  | none => .error .secretKeyHexDecode
  | some skBytes =>
    match bls.SecretKeyFromBytes skBytes with
    | none => .error .secretKeyParse
    | some sk => .ok (hexutil.Encode (marshalG2 (bls.Sign sk (goCopy32 msg))))

/-- One iteration of the decode/deserialize loop of `AggregateSignatures`. -/
def parseSigHex (sigHex : GoString) : Except GoError G2 :=
  match hexutil.Decode sigHex with
  | none => .error .signatureHexDecode
  | some sigBytes =>
    match bls.SignatureFromBytes sigBytes with
    | none => .error .signatureParse
    | some sig => .ok sig

/-- The decode loop of `AggregateSignatures`: first failure wins. -/
def parseAllSigs : List GoString → Except GoError (List G2)
  | [] => .ok []
  | x :: t =>
    match parseSigHex x with
    | .error e => .error e
    | .ok g =>
      match parseAllSigs t with
      | .error e => .error e
      | .ok gs => .ok (g :: gs)

/-- `AggregateSignatures` of `main.go`: decode and deserialize every input
signature, aggregate with the curve library, and hex-encode the marshalled
aggregate.  For the empty list the library returns nil and the unguarded
`aggSig.Marshal()` call panics, modelled as the `runtimePanic` outcome. -/
def AggregateSignatures (sigHexes : List GoString) : Except GoError GoString :=
  match parseAllSigs sigHexes with
  | .error e => .error e
  | .ok sigs =>
    match bls.AggregateSignatures sigs with
    | none => .error .runtimePanic
    | some aggSig => .ok (hexutil.Encode (marshalG2 aggSig))

/-- Body of `VerifySignature` after the message length check: decode the
signature hex, decode and deserialize the public key, then call the curve
library on the 32-byte digest. -/
def verifyBody (pubKeyHex sigHex msg : GoString) : Except GoError Bool :=
  match hexutil.Decode sigHex with
  | none => .error .signatureHexDecode
  | some sigBytes =>
    match hexutil.Decode pubKeyHex with
    | none => .error .publicKeyHexDecode
    | some pubKeyBytes =>
      match bls.PublicKeyFromBytes pubKeyBytes with
      | none => .error .publicKeyParse
      | some pubKey => bls.VerifySignature sigBytes (goCopy32 msg) pubKey

/-- `VerifySignature` of `main.go`: reject messages longer than 32 bytes
with `ErrInvalidMsgLength`, then proceed to decode and check. -/
def VerifySignature (pubKeyHex sigHex msg : GoString) : Except GoError Bool :=
  if 32 < msg.length then .error .invalidMsgLength
  else verifyBody pubKeyHex sigHex msg

/-- The per-public-key loop of `VerifyAggregateSignature`: for each public
key it appends the 32-byte digest of `msg`, decodes and deserializes the
public key, and re-decodes and re-deserializes the aggregate signature hex;
the first failure aborts the call. -/
def buildBatch (aggregateSigHex msg : GoString) :
    List GoString → Except GoError (List (List Byte) × List Nat × List G2)
  | [] => .ok ([], [], [])
  | pubKeyHex :: rest =>
    match hexutil.Decode pubKeyHex with
    | none => .error .publicKeyHexDecode
    | some pubKeyBytes =>
      match bls.PublicKeyFromBytes pubKeyBytes with
      | none => .error .publicKeyParse
      | some pubKey =>
        match hexutil.Decode aggregateSigHex with
        | none => .error .signatureHexDecode
        | some sigBytes =>
          match bls.SignatureFromBytes sigBytes with
          | none => .error .signatureParse
          | some sig =>
            match buildBatch aggregateSigHex msg rest with
            | .error e => .error e
            | .ok (ms, ps, ss) => .ok (goCopy32 msg :: ms, pubKey :: ps, sig :: ss)

/-- `VerifyAggregateSignature` of `main.go`: build the parallel slices (one
copy of the deserialized aggregate signature and one copy of the digest per
public key), re-marshal each signature copy, and hand the three slices to
prysm's batch verifier. -/
def VerifyAggregateSignature (aggregateSigHex msg : GoString)
    (pubKeyHexes : List GoString) : Except GoError Bool :=
  match buildBatch aggregateSigHex msg pubKeyHexes with
  | .error e => .error e
  | .ok (ms, ps, ss) => bls.VerifyMultipleSignatures (ss.map marshalG2) ms ps

/-! ### Support lemmas: hex codec -/

theorem hexDigitVal_hexDigitChar : ∀ n : Fin 16, hexDigitVal (hexDigitChar n.val) = some n.val := by
  decide

theorem decodeHexBody_encode (b : List Byte) :
    decodeHexBody
      (concatMap (fun x => [hexDigitChar (x.val / 16), hexDigitChar (x.val % 16)]) b) =
      some b := by
  induction b with
  | nil => rfl
  | cons x t ih =>
    have hhi : hexDigitVal (hexDigitChar (x.val / 16)) = some (x.val / 16) :=
      hexDigitVal_hexDigitChar ⟨x.val / 16, by omega⟩
    have hlo : hexDigitVal (hexDigitChar (x.val % 16)) = some (x.val % 16) :=
      hexDigitVal_hexDigitChar ⟨x.val % 16, by omega⟩
    have harg : concatMap (fun x => [hexDigitChar (x.val / 16), hexDigitChar (x.val % 16)]) (x :: t)
        = hexDigitChar (x.val / 16) :: hexDigitChar (x.val % 16) ::
            concatMap (fun x => [hexDigitChar (x.val / 16), hexDigitChar (x.val % 16)]) t := rfl
    rw [harg, decodeHexBody, hhi, hlo, ih]
    refine congrArg some (List.cons_eq_cons.mpr ⟨Fin.ext ?_, rfl⟩)
    show (16 * (x.val / 16) + x.val % 16) % 256 = x.val
    omega

theorem hexutil_decode_encode (b : List Byte) : hexutil.Decode (hexutil.Encode b) = some b := by
  have h : hexutil.Decode (hexutil.Encode b) =
      decodeHexBody (concatMap (fun x => [hexDigitChar (x.val / 16), hexDigitChar (x.val % 16)]) b) :=
    rfl
  rw [h, decodeHexBody_encode]

/-! ### Support lemmas: big-endian encoding -/

theorem natToBE_length (w v : Nat) : (natToBE w v).length = w := by
  induction w generalizing v with
  | zero => rfl
  | succ w ih => simp [natToBE, ih]

theorem beVal_foldl_acc (l : List Byte) (a : Nat) :
    l.foldl (fun a b => a * 256 + b.val) a = a * 256 ^ l.length + beVal l := by
  induction l generalizing a with
  | nil => simp [beVal]
  | cons x t ih =>
    show t.foldl _ (a * 256 + x.val) = _
    rw [ih (a * 256 + x.val)]
    have hx : beVal (x :: t) = x.val * 256 ^ t.length + beVal t := by
      show t.foldl _ (0 * 256 + x.val) = _
      rw [ih (0 * 256 + x.val)]
      ring
    rw [hx]
    simp [List.length_cons, pow_succ]
    ring

theorem beVal_cons (x : Byte) (t : List Byte) :
    beVal (x :: t) = x.val * 256 ^ t.length + beVal t := by
  show t.foldl _ (0 * 256 + x.val) = _
  rw [beVal_foldl_acc]
  ring

theorem beVal_append (l₁ l₂ : List Byte) :
    beVal (l₁ ++ l₂) = beVal l₁ * 256 ^ l₂.length + beVal l₂ := by
  show (l₁ ++ l₂).foldl _ 0 = _
  rw [List.foldl_append, beVal_foldl_acc]
  rfl

theorem beVal_natToBE (w v : Nat) (h : v < 256 ^ w) : beVal (natToBE w v) = v := by
  induction w generalizing v with
  | zero =>
    have : v = 0 := by simpa using h
    simp [natToBE, beVal, this]
  | succ w ih =>
    have hdiv : v / 256 < 256 ^ w := by
      rw [Nat.div_lt_iff_lt_mul (by omega)]
      calc v < 256 ^ (w + 1) := h
        _ = 256 ^ w * 256 := by rw [pow_succ]
    simp only [natToBE, beVal_append, ih (v / 256) hdiv]
    have : beVal [(⟨v % 256, by omega⟩ : Byte)] = v % 256 := by
      simp [beVal]
    rw [this]
    simp only [List.length_singleton, pow_one]
    omega

theorem beVal_lt (l : List Byte) : beVal l < 256 ^ l.length := by
  induction l with
  | nil => simp [beVal]
  | cons x t ih =>
    rw [beVal_cons]
    have hx : x.val < 256 := x.isLt
    calc x.val * 256 ^ t.length + beVal t
        < x.val * 256 ^ t.length + 256 ^ t.length := by omega
      _ = (x.val + 1) * 256 ^ t.length := by ring
      _ ≤ 256 * 256 ^ t.length := by
          exact Nat.mul_le_mul_right _ (by omega)
      _ = 256 ^ (x :: t).length := by rw [List.length_cons, pow_succ]; ring

/-! ### Support lemmas: the 32-byte digest -/

theorem goCopy32_length (msg : GoString) : (goCopy32 msg).length = 32 := by
  simp [goCopy32]

theorem goCopy32_eq (msg : GoString) :
    goCopy32 msg = msg.take 32 ++ List.replicate (32 - msg.length) (0 : Byte) := by
  unfold goCopy32
  rw [List.take_append_eq_append_take, List.take_replicate]
  congr 2
  omega

theorem goCopy32_take (msg : GoString) : goCopy32 (msg.take 32) = goCopy32 msg := by
  rw [goCopy32_eq, goCopy32_eq, List.take_take, List.length_take]
  have h1 : min 32 32 = 32 := rfl
  have h2 : 32 - min 32 msg.length = 32 - msg.length := by omega
  rw [h1, h2]

/-! ### Support lemmas: canonical forms and single-term points -/

theorem canonList_ofList (l : List (Nat × Nat)) :
    canonList (Multiset.ofList l) = canonListL l := rfl

theorem gEqB_refl (g : G2) : gEqB g g = true := by simp [gEqB]

theorem rBLS_lt_2_pow_256 : rBLS < 256 ^ 32 := by decide

theorem canonListL_single (k c : Nat) (h0 : 0 < c) (hr : c < rBLS) :
    canonListL [(k, c)] = [(k, c)] := by
  have hc : coeffL [(k, c)] k = c := by
    simp [coeffL, Nat.mod_eq_of_lt hr]
  have hne : coeffL [(k, c)] k ≠ 0 := by rw [hc]; omega
  rw [canonListL]
  have hkeys : (([(k, c)] : List (Nat × Nat)).map Prod.fst).dedup = [k] := by simp
  rw [hkeys]
  have hsort : List.insertionSort (· ≤ ·) [k] = [k] := by
    simp [List.insertionSort, List.orderedInsert]
  rw [hsort]
  have hcne : c ≠ 0 := by omega
  simp [List.filterMap, hne, hc, hcne]

theorem marshalG2_single (k c : Nat) (h0 : 0 < c) (hr : c < rBLS) :
    marshalG2 (Multiset.ofList [(k, c)]) = natToBE 32 k ++ natToBE 32 c := by
  unfold marshalG2
  rw [canonList_ofList, canonListL_single k c h0 hr]
  simp [concatMap]

theorem chunks64_exact (l acc : List Byte) (h : acc.length + l.length = 64) (hl : l ≠ []) :
    chunks64 acc l = some [acc.reverse ++ l] := by
  induction l generalizing acc with
  | nil => exact absurd rfl hl
  | cons x t ih =>
    by_cases ht : t = []
    · subst ht
      have hlen : acc.length = 63 := by simpa using h
      simp [chunks64, hlen]
    · have hlen : acc.length ≠ 63 := by
        have : 0 < t.length := List.length_pos.mpr ht
        simp only [List.length_cons] at h
        omega
      rw [chunks64, if_neg hlen, ih (x :: acc) (by simp at h ⊢; omega) ht]
      simp

theorem termsOfChunks_single (k c : Nat) (hk : k < 256 ^ 32) (h0 : 0 < c) (hr : c < rBLS) :
    termsOfChunks none [natToBE 32 k ++ natToBE 32 c] = some [(k, c)] := by
  have htake : (natToBE 32 k ++ natToBE 32 c).take 32 = natToBE 32 k :=
    List.take_left' (natToBE_length 32 k)
  have hdrop : (natToBE 32 k ++ natToBE 32 c).drop 32 = natToBE 32 c :=
    List.drop_left' (natToBE_length 32 k)
  have hc : c < 256 ^ 32 := lt_trans hr rBLS_lt_2_pow_256
  rw [termsOfChunks]
  simp only [htake, hdrop, beVal_natToBE 32 k hk, beVal_natToBE 32 c hc]
  rw [if_pos (by first | exact ⟨rfl, h0, hr⟩ | exact ⟨trivial, h0, hr⟩)]
  rfl

theorem SignatureFromBytes_marshal_single (k c : Nat)
    (hk : k < 256 ^ 32) (h0 : 0 < c) (hr : c < rBLS) :
    bls.SignatureFromBytes (marshalG2 (Multiset.ofList [(k, c)])) =
      some (Multiset.ofList [(k, c)]) := by
  have hlen : (natToBE 32 k ++ natToBE 32 c).length = 64 := by
    simp [natToBE_length]
  have hne : natToBE 32 k ++ natToBE 32 c ≠ [] := by
    intro hcon
    rw [hcon] at hlen
    simp at hlen
  have h2 : ([] : List Byte).length + (natToBE 32 k ++ natToBE 32 c).length = 64 := by
    rw [hlen]
    rfl
  have hch := chunks64_exact (natToBE 32 k ++ natToBE 32 c) [] h2 hne
  rw [List.reverse_nil, List.nil_append] at hch
  show ((chunks64 [] (marshalG2 (Multiset.ofList [(k, c)]))).bind
      (termsOfChunks none)).map Multiset.ofList = _
  rw [marshalG2_single k c h0 hr, hch, Option.some_bind,
    termsOfChunks_single k c hk h0 hr, Option.map_some']

/-! ### Support lemmas: key deserialization and wrapper branches -/

theorem rBLS_lt_2_pow_384 : rBLS < 256 ^ 48 := by decide

theorem bls_SecretKeyFromBytes_natToBE (v : Nat) (h0 : 0 < v) (hr : v < rBLS) :
    bls.SecretKeyFromBytes (natToBE 32 v) = some v := by
  have hv : v < 256 ^ 32 := lt_trans hr rBLS_lt_2_pow_256
  have hb : beVal (natToBE 32 v) = v := beVal_natToBE 32 v hv
  simp only [bls.SecretKeyFromBytes, natToBE_length, hb]
  simp [h0, hr]

theorem bls_PublicKeyFromBytes_natToBE (v : Nat) (h0 : 0 < v) (hr : v < rBLS) :
    bls.PublicKeyFromBytes (natToBE 48 v) = some v := by
  have hv : v < 256 ^ 48 := lt_trans hr rBLS_lt_2_pow_384
  have hb : beVal (natToBE 48 v) = v := beVal_natToBE 48 v hv
  simp only [bls.PublicKeyFromBytes, natToBE_length, hb]
  simp [h0, hr]

theorem GenerateSignature_ok (skHex msg : GoString) (b : List Byte) (sk : Nat)
    (hd : hexutil.Decode skHex = some b) (hk : bls.SecretKeyFromBytes b = some sk) :
    GenerateSignature skHex msg =
      .ok (hexutil.Encode (marshalG2 (bls.Sign sk (goCopy32 msg)))) := by
  simp [GenerateSignature, hd, hk]

theorem verifyBody_ne_invalidMsgLength (p s m : GoString) :
    verifyBody p s m ≠ .error .invalidMsgLength := by
  cases hsd : hexutil.Decode s with
  | none => simp [verifyBody, hsd]
  | some sigBytes =>
    cases hpd : hexutil.Decode p with
    | none => simp [verifyBody, hsd, hpd]
    | some pkBytes =>
      cases hpk : bls.PublicKeyFromBytes pkBytes with
      | none => simp [verifyBody, hsd, hpd, hpk]
      | some pk =>
        cases hsig : bls.SignatureFromBytes sigBytes with
        | none => simp [verifyBody, bls.VerifySignature, hsd, hpd, hpk, hsig]
        | some s2 => simp [verifyBody, bls.VerifySignature, hsd, hpd, hpk, hsig]

theorem verifyBody_ok (p s m : GoString) (sigBytes pkBytes : List Byte) (pk : Nat) (sig : G2)
    (hsd : hexutil.Decode s = some sigBytes) (hpd : hexutil.Decode p = some pkBytes)
    (hpk : bls.PublicKeyFromBytes pkBytes = some pk)
    (hsig : bls.SignatureFromBytes sigBytes = some sig) :
    verifyBody p s m = .ok (bls.pairingHolds pk (goCopy32 m) sig) := by
  simp [verifyBody, bls.VerifySignature, hsd, hpd, hpk, hsig]

theorem VerifySignature_wf (pubKeyHex sigHex msg : GoString) (hm : msg.length ≤ 32)
    (sigBytes pkBytes : List Byte) (pk : Nat) (sig : G2)
    (hsd : hexutil.Decode sigHex = some sigBytes)
    (hpd : hexutil.Decode pubKeyHex = some pkBytes)
    (hpk : bls.PublicKeyFromBytes pkBytes = some pk)
    (hsig : bls.SignatureFromBytes sigBytes = some sig) :
    VerifySignature pubKeyHex sigHex msg = .ok (bls.pairingHolds pk (goCopy32 msg) sig) := by
  rw [VerifySignature, if_neg (by omega)]
  exact verifyBody_ok pubKeyHex sigHex msg sigBytes pkBytes pk sig hsd hpd hpk hsig

theorem pairingHolds_self (pk : Nat) (d : List Byte) :
    bls.pairingHolds pk d (bls.Sign pk d) = true :=
  gEqB_refl (Multiset.ofList [(beVal d, pk)])

theorem SignatureFromBytes_marshal_Sign (sk : Nat) (msg : GoString)
    (h0 : 0 < sk) (hr : sk < rBLS) :
    bls.SignatureFromBytes (marshalG2 (bls.Sign sk (goCopy32 msg))) =
      some (bls.Sign sk (goCopy32 msg)) := by
  have hk : beVal (goCopy32 msg) < 256 ^ 32 := by
    have h1 := beVal_lt (goCopy32 msg)
    rw [goCopy32_length msg] at h1
    exact h1
  exact SignatureFromBytes_marshal_single (beVal (goCopy32 msg)) sk hk h0 hr

/-- Outcome test of an `Except` value. -/
def exceptIsOk {ε α : Type} : Except ε α → Bool
  | .ok _ => true
  | .error _ => false

/-- Well-formedness of a public-key hex string: it decodes and
deserializes. -/
def wfPubKeyHex (p : GoString) : Bool :=
  ((hexutil.Decode p).bind bls.PublicKeyFromBytes).isSome

/-- Well-formedness of a signature hex string: it decodes and
deserializes. -/
def wfSigHex (s : GoString) : Bool :=
  ((hexutil.Decode s).bind bls.SignatureFromBytes).isSome

theorem buildBatch_ok (aggHex msg : GoString) (l : List GoString)
    (hs : wfSigHex aggHex = true) (hp : ∀ p ∈ l, wfPubKeyHex p = true) :
    ∃ ms ps ss, buildBatch aggHex msg l = .ok (ms, ps, ss) ∧
      ms.length = l.length ∧ ps.length = l.length ∧ ss.length = l.length := by
  induction l with
  | nil => exact ⟨[], [], [], rfl, rfl, rfl, rfl⟩
  | cons p t ih =>
    obtain ⟨ms, ps, ss, hb, h1, h2, h3⟩ := ih (fun q hq => hp q (List.mem_cons_of_mem p hq))
    have hpw := hp p (List.mem_cons_self p t)
    rw [wfPubKeyHex] at hpw
    rw [wfSigHex] at hs
    cases hpd : hexutil.Decode p with
    | none => rw [hpd] at hpw; simp at hpw
    | some pkBytes =>
      rw [hpd] at hpw
      cases hpk : bls.PublicKeyFromBytes pkBytes with
      | none => simp [hpk] at hpw
      | some pk =>
        cases hsd : hexutil.Decode aggHex with
        | none => rw [hsd] at hs; simp at hs
        | some sigBytes =>
          rw [hsd] at hs
          cases hsg : bls.SignatureFromBytes sigBytes with
          | none => simp [hsg] at hs
          | some sig =>
            refine ⟨goCopy32 msg :: ms, pk :: ps, sig :: ss, ?_, by simp [h1], by simp [h2],
              by simp [h3]⟩
            simp [buildBatch, hpd, hpk, hsd, hsg, hb]

theorem buildBatch_msg_take (aggHex msg : GoString) (l : List GoString) :
    buildBatch aggHex (msg.take 32) l = buildBatch aggHex msg l := by
  induction l with
  | nil => rfl
  | cons p t ih => simp only [buildBatch, goCopy32_take, ih]

theorem verifyMultiple_ok_of_lengths (sigs msgs : List (List Byte)) (pks : List Nat)
    (h1 : sigs.length = pks.length) (h2 : msgs.length = pks.length) :
    ∃ b, bls.VerifyMultipleSignatures sigs msgs pks = .ok b := by
  unfold bls.VerifyMultipleSignatures
  by_cases hemp : sigs.isEmpty ∨ pks.isEmpty
  · rw [if_pos hemp]
    exact ⟨false, rfl⟩
  · rw [if_neg hemp]
    cases hm : sigs.mapM bls.SignatureFromBytes with
    | none => exact ⟨false, rfl⟩
    | some ss =>
      refine ⟨bls.batchHolds ss msgs pks, ?_⟩
      show (if sigs.length ≠ pks.length ∨ msgs.length ≠ pks.length then
          (Except.error GoError.batchLengthMismatch : Except GoError Bool)
        else Except.ok (bls.batchHolds ss msgs pks)) = Except.ok (bls.batchHolds ss msgs pks)
      rw [if_neg (by simp [h1, h2])]

/-- Total extraction of the parsed signature (the error case is never
reached under the well-formedness hypotheses where it is used). -/
def sigOf (x : GoString) : G2 :=
  match parseSigHex x with
  | .ok g => g
  | .error _ => 0

theorem parseAllSigs_ok (l : List GoString) (h : ∀ x ∈ l, exceptIsOk (parseSigHex x) = true) :
    parseAllSigs l = .ok (l.map sigOf) := by
  induction l with
  | nil => rfl
  | cons x t ih =>
    have hx := h x (List.mem_cons_self x t)
    have hxo : parseSigHex x = .ok (sigOf x) := by
      rw [sigOf]
      cases hpx : parseSigHex x with
      | ok g => rfl
      | error e => rw [hpx] at hx; simp [exceptIsOk] at hx
    rw [List.map_cons, parseAllSigs, hxo, ih (fun q hq => h q (List.mem_cons_of_mem x hq))]

/-! ### Claims -/

/-- C3: single-verify message-length boundary.  `VerifySignature` accepts a
message of exactly 32 bytes (it proceeds to the decode/pairing-check body
and does not produce the length error), and for every message of 33 or
more bytes it fails with the `ErrInvalidMsgLength` error before any other
processing (for all public-key and signature arguments, well formed or
not). -/
theorem verify_message_length_boundary (pubKeyHex sigHex msg : GoString) :
    (msg.length = 32 →
      VerifySignature pubKeyHex sigHex msg = verifyBody pubKeyHex sigHex msg ∧
      VerifySignature pubKeyHex sigHex msg ≠ .error .invalidMsgLength) ∧
    (33 ≤ msg.length →
      VerifySignature pubKeyHex sigHex msg = .error .invalidMsgLength) := by
  constructor
  · intro h
    have hle : ¬ 32 < msg.length := by omega
    rw [VerifySignature, if_neg hle]
    exact ⟨rfl, verifyBody_ne_invalidMsgLength pubKeyHex sigHex msg⟩
  · intro h
    rw [VerifySignature, if_pos (by omega)]

/-- Witness for C3 at the boundary: the all-zero 32-byte message passes the
length check, the all-zero 33-byte message is rejected. -/
theorem verify_message_length_boundary_witness :
    VerifySignature [] [] (List.replicate 32 (0 : Byte)) =
      verifyBody [] [] (List.replicate 32 (0 : Byte)) ∧
    VerifySignature [] [] (List.replicate 32 (0 : Byte)) ≠ .error .invalidMsgLength ∧
    VerifySignature [] [] (List.replicate 33 (0 : Byte)) = .error .invalidMsgLength :=
  ⟨((verify_message_length_boundary [] [] _).1 (by decide)).1,
   ((verify_message_length_boundary [] [] _).1 (by decide)).2,
   (verify_message_length_boundary [] [] _).2 (by decide)⟩

/-- C7: message encoding on the signing path.  The 32-byte digest signed by
`GenerateSignature` is the message copied from offset 0, left-aligned: a
shorter message is padded with trailing zero bytes and a longer message is
silently truncated to its leading 32 bytes; signing succeeds for any
message length (shown here for the valid secret key with scalar 1, with
the message universally quantified). -/
theorem message_encoding_signing (msg : GoString) :
    (goCopy32 msg).length = 32 ∧
    goCopy32 msg = msg.take 32 ++ List.replicate (32 - msg.length) (0 : Byte) ∧
    GenerateSignature (hexutil.Encode (natToBE 32 1)) msg =
      .ok (hexutil.Encode (marshalG2 (bls.Sign 1 (goCopy32 msg)))) := by
  refine ⟨goCopy32_length msg, goCopy32_eq msg, ?_⟩
  exact GenerateSignature_ok _ msg (natToBE 32 1) 1 (hexutil_decode_encode _)
    (bls_SecretKeyFromBytes_natToBE 1 (by omega) (by decide))

/-- C8: `GenerateSignature` fails exactly on a bad key.  An error is
returned precisely when the secret-key hex fails to decode or the decoded
bytes fail to deserialize as a secret key; for a valid key the signature
over the 32-byte digest of the message is returned for every message, of
any length. -/
theorem signing_fails_iff_bad_key (privKeyHex msg : GoString) :
    ((∃ e, GenerateSignature privKeyHex msg = .error e) ↔
      (hexutil.Decode privKeyHex = none ∨
        ∃ b, hexutil.Decode privKeyHex = some b ∧ bls.SecretKeyFromBytes b = none)) ∧
    (∀ b sk, hexutil.Decode privKeyHex = some b → bls.SecretKeyFromBytes b = some sk →
      GenerateSignature privKeyHex msg =
        .ok (hexutil.Encode (marshalG2 (bls.Sign sk (goCopy32 msg))))) := by
  constructor
  · constructor
    · rintro ⟨e, he⟩
      cases hd : hexutil.Decode privKeyHex with
      | none => exact Or.inl rfl
      | some b =>
        cases hk : bls.SecretKeyFromBytes b with
        | none => exact Or.inr ⟨b, rfl, hk⟩
        | some sk =>
          rw [GenerateSignature_ok privKeyHex msg b sk hd hk] at he
          simp at he
    · rintro (hnone | ⟨b, hb, hk⟩)
      · exact ⟨.secretKeyHexDecode, by simp [GenerateSignature, hnone]⟩
      · exact ⟨.secretKeyParse, by simp [GenerateSignature, hb, hk]⟩
  · intro b sk hd hk
    exact GenerateSignature_ok privKeyHex msg b sk hd hk

/-- Witness for C8: the valid secret key with scalar 1 signs the one-byte
message `a` without error. -/
theorem signing_fails_iff_bad_key_witness :
    GenerateSignature (hexutil.Encode (natToBE 32 1)) [97] =
      .ok (hexutil.Encode (marshalG2 (bls.Sign 1 (goCopy32 [97])))) :=
  (signing_fails_iff_bad_key _ _).2 (natToBE 32 1) 1 (hexutil_decode_encode _) (by decide)

/-- C10: with an empty public-key list the result of
`VerifyAggregateSignature` is independent of the aggregate-signature and
message arguments (the signature hex is only touched inside the
per-public-key loop), and that common outcome is the verdict
`(false, nil)`. -/
theorem verifyAggregate_emptyKeys_independent (a₁ m₁ a₂ m₂ : GoString) :
    VerifyAggregateSignature a₁ m₁ [] = VerifyAggregateSignature a₂ m₂ [] ∧
    VerifyAggregateSignature a₁ m₁ [] = .ok false :=
  ⟨rfl, rfl⟩

/-- C1 counterexample: empty input is not rejected with an `ErrEmptyInput`
error.  `AggregateSignatures []` reaches `Marshal` on the nil aggregate
returned by the curve library and crashes (modelled `runtimePanic`), and
`VerifyAggregateSignature` with an empty key list returns the verdict
`(false, nil)` - here evaluated at a non-hex signature argument and a
concrete message. -/
theorem empty_input_not_ErrEmptyInput :
    AggregateSignatures [] = .error .runtimePanic ∧
    AggregateSignatures [] ≠ .error .emptyInput ∧
    VerifyAggregateSignature [1, 2, 3] [4, 5] [] = .ok false ∧
    VerifyAggregateSignature [1, 2, 3] [4, 5] [] ≠ .error .emptyInput := by
  refine ⟨rfl, ?_, rfl, ?_⟩ <;> decide

/-- C1 amended: neither empty-input call produces `ErrEmptyInput` (no such
error exists in the code).  `AggregateSignatures []` passes the empty list
to the library aggregator, which yields nil, and the unguarded `Marshal`
call panics at runtime; `VerifyAggregateSignature(sig, m, [])` skips its
loop entirely and returns prysm's empty-batch verdict `(false, nil)`, for
every signature argument and message. -/
theorem empty_input_behaviour (sigHex msg : GoString) :
    AggregateSignatures [] = .error .runtimePanic ∧
    VerifyAggregateSignature sigHex msg [] = .ok false :=
  ⟨rfl, rfl⟩

theorem AggregateSignatures_ok (l : List GoString) (hne : l ≠ [])
    (h : ∀ x ∈ l, exceptIsOk (parseSigHex x) = true) :
    AggregateSignatures l = .ok (hexutil.Encode (marshalG2 ((l.map sigOf).sum))) := by
  have hp : parseAllSigs l = .ok (l.map sigOf) := parseAllSigs_ok l h
  have he : (l.map sigOf).isEmpty = false := by
    cases l with
    | nil => exact absurd rfl hne
    | cons a t => rfl
  simp [AggregateSignatures, hp, bls.AggregateSignatures, he]

/-- C4: false is not an error in single verification.  For every message of
at most 32 bytes and every well-formed (hex-decodable and deserializable)
public key and signature, `VerifySignature` returns the pairing verdict
with a nil error; in particular when the signature is well formed but
cryptographically invalid for that key and message the verdict is
`(false, nil)` - never an error.  Errors arise only from the
decode/deserialization steps. -/
theorem verify_false_not_error (pubKeyHex sigHex msg : GoString) (hm : msg.length ≤ 32)
    (sigBytes pkBytes : List Byte) (pk : Nat) (sig : G2)
    (hsd : hexutil.Decode sigHex = some sigBytes)
    (hpd : hexutil.Decode pubKeyHex = some pkBytes)
    (hpk : bls.PublicKeyFromBytes pkBytes = some pk)
    (hsig : bls.SignatureFromBytes sigBytes = some sig) :
    VerifySignature pubKeyHex sigHex msg = .ok (bls.pairingHolds pk (goCopy32 msg) sig) :=
  VerifySignature_wf pubKeyHex sigHex msg hm sigBytes pkBytes pk sig hsd hpd hpk hsig

/-- Witness for C4: the signature of secret key 1 over `abc`, checked
against the unrelated public key with discrete logarithm 2, yields the
verdict `(false, nil)` - not an error. -/
theorem verify_false_not_error_witness :
    VerifySignature (hexutil.Encode (natToBE 48 2))
      (hexutil.Encode (marshalG2 (bls.Sign 1 (goCopy32 [97, 98, 99]))))
      [97, 98, 99] = .ok false := by
  have h := verify_false_not_error (hexutil.Encode (natToBE 48 2))
    (hexutil.Encode (marshalG2 (bls.Sign 1 (goCopy32 [97, 98, 99])))) [97, 98, 99]
    (by decide)
    (marshalG2 (bls.Sign 1 (goCopy32 [97, 98, 99]))) (natToBE 48 2) 2
    (bls.Sign 1 (goCopy32 [97, 98, 99]))
    (hexutil_decode_encode _) (hexutil_decode_encode _)
    (bls_PublicKeyFromBytes_natToBE 2 (by omega) (by decide))
    (SignatureFromBytes_marshal_Sign 1 [97, 98, 99] (by omega) (by decide))
  rw [h]
  decide

/-- C5: sign/verify soundness.  For every key pair produced by
`GenerateKeyPair` (scalar `v` sampled by the library, so `0 < v < rBLS`)
and every message of at most 32 bytes, signing with the secret key and
verifying with the matching public key succeeds with `(true, nil)`. -/
theorem sign_verify_soundness (v : Nat) (msg : GoString)
    (h0 : 0 < v) (hr : v < rBLS) (hm : msg.length ≤ 32) :
    GenerateSignature (GenerateKeyPair v).1 msg =
      .ok (hexutil.Encode (marshalG2 (bls.Sign v (goCopy32 msg)))) ∧
    VerifySignature (GenerateKeyPair v).2
      (hexutil.Encode (marshalG2 (bls.Sign v (goCopy32 msg)))) msg = .ok true := by
  constructor
  · exact GenerateSignature_ok _ msg (natToBE 32 v) v (hexutil_decode_encode _)
      (bls_SecretKeyFromBytes_natToBE v h0 hr)
  · have hsig := SignatureFromBytes_marshal_Sign v msg h0 hr
    have hver := VerifySignature_wf (GenerateKeyPair v).2
      (hexutil.Encode (marshalG2 (bls.Sign v (goCopy32 msg)))) msg hm
      (marshalG2 (bls.Sign v (goCopy32 msg))) (natToBE 48 v) v (bls.Sign v (goCopy32 msg))
      (hexutil_decode_encode _) (hexutil_decode_encode _)
      (bls_PublicKeyFromBytes_natToBE v h0 hr) hsig
    rw [hver, pairingHolds_self]

/-- Witness for C5: the key pair of scalar 1 signs and verifies the
two-byte message `hi`. -/
theorem sign_verify_soundness_witness :
    GenerateSignature (GenerateKeyPair 1).1 [104, 105] =
      .ok (hexutil.Encode (marshalG2 (bls.Sign 1 (goCopy32 [104, 105])))) ∧
    VerifySignature (GenerateKeyPair 1).2
      (hexutil.Encode (marshalG2 (bls.Sign 1 (goCopy32 [104, 105])))) [104, 105] = .ok true :=
  sign_verify_soundness 1 [104, 105] (by decide) (by decide) (by decide)

/-- C6: aggregation is order-independent.  For every non-empty list of
well-formed signature hex strings and every permutation of it,
`AggregateSignatures` returns the byte-identical (hence hex-identical)
serialized aggregate. -/
theorem aggregation_order_independent (l₁ l₂ : List GoString)
    (hperm : l₁.Perm l₂) (hne : l₁ ≠ [])
    (h : ∀ x ∈ l₁, exceptIsOk (parseSigHex x) = true) :
    AggregateSignatures l₁ = AggregateSignatures l₂ := by
  have h₂ : ∀ x ∈ l₂, exceptIsOk (parseSigHex x) = true := fun x hx =>
    h x (hperm.mem_iff.mpr hx)
  have hne₂ : l₂ ≠ [] := by
    intro hc
    rw [hc] at hperm
    exact hne hperm.eq_nil
  have hsum : ((l₁.map sigOf).sum : G2) = (l₂.map sigOf).sum := (hperm.map sigOf).sum_eq
  rw [AggregateSignatures_ok l₁ hne h, AggregateSignatures_ok l₂ hne₂ h₂, hsum]

/-- Witness for C6: swapping two distinct well-formed signatures gives the
identical serialized aggregate. -/
theorem aggregation_order_independent_witness :
    AggregateSignatures
      [hexutil.Encode (marshalG2 (bls.Sign 1 (goCopy32 [1]))),
       hexutil.Encode (marshalG2 (bls.Sign 2 (goCopy32 [2])))] =
    AggregateSignatures
      [hexutil.Encode (marshalG2 (bls.Sign 2 (goCopy32 [2]))),
       hexutil.Encode (marshalG2 (bls.Sign 1 (goCopy32 [1])))] :=
  aggregation_order_independent _ _ (List.Perm.swap _ _ []) (by decide) (by decide)

/-- C9: aggregate verification does not enforce the 32-byte message
ceiling.  For every message longer than 32 bytes, a well-formed aggregate
signature hex and a non-empty list of well-formed public-key hexes,
`VerifyAggregateSignature` returns a verdict (never the message-length
error or any other error), and the outcome equals the call on the
message truncated to its leading 32 bytes - the digest is the silent
truncation. -/
theorem verifyAggregate_truncates_no_length_error (aggHex msg : GoString)
    (pubKeyHexes : List GoString)
    (hlen : 32 < msg.length) (hne : pubKeyHexes ≠ [])
    (hs : wfSigHex aggHex = true) (hp : ∀ p ∈ pubKeyHexes, wfPubKeyHex p = true) :
    (∃ b, VerifyAggregateSignature aggHex msg pubKeyHexes = .ok b) ∧
    VerifyAggregateSignature aggHex msg pubKeyHexes =
      VerifyAggregateSignature aggHex (msg.take 32) pubKeyHexes := by
  obtain ⟨ms, ps, ss, hb, h1, h2, h3⟩ := buildBatch_ok aggHex msg pubKeyHexes hs hp
  constructor
  · obtain ⟨b, hvb⟩ := verifyMultiple_ok_of_lengths (ss.map marshalG2) ms ps
      (by rw [List.length_map, h3, h2]) (by rw [h1, h2])
    exact ⟨b, by simp [VerifyAggregateSignature, hb, hvb]⟩
  · unfold VerifyAggregateSignature
    rw [buildBatch_msg_take]

/-- Witness for C9: a 33-byte message with one valid public key and a
valid signature hex is not rejected for its length and equals the
truncated-message call. -/
theorem verifyAggregate_truncates_witness :
    (∃ b, VerifyAggregateSignature
        (hexutil.Encode (marshalG2 (bls.Sign 1 (goCopy32 (List.replicate 33 (7 : Byte))))))
        (List.replicate 33 (7 : Byte))
        [hexutil.Encode (natToBE 48 1)] = .ok b) ∧
    VerifyAggregateSignature
        (hexutil.Encode (marshalG2 (bls.Sign 1 (goCopy32 (List.replicate 33 (7 : Byte))))))
        (List.replicate 33 (7 : Byte))
        [hexutil.Encode (natToBE 48 1)] =
      VerifyAggregateSignature
        (hexutil.Encode (marshalG2 (bls.Sign 1 (goCopy32 (List.replicate 33 (7 : Byte))))))
        ((List.replicate 33 (7 : Byte)).take 32)
        [hexutil.Encode (natToBE 48 1)] :=
  verifyAggregate_truncates_no_length_error _ _ _ (by decide) (by decide) (by decide) (by decide)

/-- C2 (code-bug exhibit): with the two distinct valid key pairs of
scalars 1 and 2 and the shared 4-byte message `test`, each individual
signature verifies with `(true, nil)`, yet verifying the aggregate of the
two signatures against the two public keys returns `(false, nil)`:
`VerifyAggregateSignature` duplicates the single aggregate signature once
per public key and batch-verifies that copy against each public key
individually, and `(sk1 + sk2) * H(m)` is not `sk_i * H(m)`. -/
theorem aggregate_verify_homogeneous_returns_false :
    (do
      let s1 ← GenerateSignature (hexutil.Encode (natToBE 32 1)) [116, 101, 115, 116]
      let s2 ← GenerateSignature (hexutil.Encode (natToBE 32 2)) [116, 101, 115, 116]
      let agg ← AggregateSignatures [s1, s2]
      VerifyAggregateSignature agg [116, 101, 115, 116]
        [hexutil.Encode (natToBE 48 1), hexutil.Encode (natToBE 48 2)]) = .ok false ∧
    (do
      let s1 ← GenerateSignature (hexutil.Encode (natToBE 32 1)) [116, 101, 115, 116]
      VerifySignature (hexutil.Encode (natToBE 48 1)) s1 [116, 101, 115, 116]) = .ok true ∧
    (do
      let s2 ← GenerateSignature (hexutil.Encode (natToBE 32 2)) [116, 101, 115, 116]
      VerifySignature (hexutil.Encode (natToBE 48 2)) s2 [116, 101, 115, 116]) = .ok true := by
  refine ⟨?_, ?_, ?_⟩ <;> decide
